import Mathlib

/-!
Shallow embedding of the ROI synchronization and interaction engine of the
smile-2dvp repository (src/src/components/VideoOverlay.jsx).

JS numbers are modelled as rationals; JS objects holding detection data are
modelled as structures whose optional fields are `Option`s; a JS `Map` keyed
by `track_id ?? label_id` is modelled as an association list with the same
set/get/delete/iteration behaviour.  Fallible code paths return `Except`.
-/

/-- Constant from VideoOverlay.jsx line 6: seconds to keep stale boxes visible. -/
def BOX_HOLD_DURATION : Rat := 1/5

/-- Constant from VideoOverlay.jsx line 7 (source name CONTROL_ZONE_RATIO with a
different capitalization): bottom portion reserved for native player controls. -/
def controlZoneRatio : Rat := 12/100

/-- Normalized bounding box `[x, y, w, h]` as destructured on line 332. -/
structure BBox where
  x : Rat
  y : Rat
  w : Rat
  h : Rat
deriving DecidableEq, Repr

/-- One detection box of a ROI frame.  Field names follow the JSON fields the
component reads: `track_id`, `label_id`, `label_name`, `bbox`, `conf`, `score`.
Track identifiers are numeric in the ROI data, so `track_id ?? label_id`
compares in a single numeric key space. -/
structure Box where
  track_id : Option Int
  label_id : Int
  label_name : Option String
  bbox : BBox
  conf : Option Rat
  score : Option Rat
deriving DecidableEq, Repr

/-- `box.conf ?? box.score` (line 334). -/
def confidence (b : Box) : Option Rat :=
  b.conf.orElse (fun _ => b.score)

/-- The tracker key `box.track_id ?? box.label_id` (lines 51 and 57). -/
def bkey (b : Box) : Int :=
  b.track_id.getD b.label_id

/-- A box held in the `currentBoxes` state: a detection plus the `lastSeen`
stamp added by the tracker.  `lastSeen` is an `Option` because plain detection
objects do not carry the field (the code defends with `prev.lastSeen ?? now`
on line 72). -/
structure TrackedBox extends Box where
  lastSeen : Option Rat
deriving DecidableEq, Repr

/-- Tracker key of a tracked box, same `track_id ?? label_id` field access. -/
def tkey (tb : TrackedBox) : Int :=
  bkey tb.toBox

/-- One ROI frame: `{ t, boxes }`.  `boxes` is optional because the code guards
with `frame.boxes || []` (lines 44 and 56). -/
structure Frame where
  t : Rat
  boxes : Option (List Box)
deriving DecidableEq, Repr

/-- The scan of lines 33-36: starting from `cur = frames[0]`, walk the list,
stopping at the first frame with `frames[i].t > t` and keeping the last frame
whose timestamp is ≤ t. -/
def frameScan (cur : Frame) : List Frame → Rat → Frame
  | [], _ => cur
  | f :: rest, t => if t < f.t then cur else frameScan f rest t

/-- Lines 32-36: `let frame = frames[0]` followed by the scan.  On an empty
list `frames[0]` is `undefined`, modelled as `none`. -/
def activeFrame (frames : List Frame) (t : Rat) : Option Frame :=
  match frames with
  | [] => none
  | f0 :: _ => some (frameScan f0 frames t)

/-- `{ ...box, lastSeen: now }` (lines 44-47 and the unmatched branch of 61-66). -/
def stampBox (b : Box) (now : Rat) : TrackedBox :=
  { toBox := b, lastSeen := some now }

/-- The matched-branch spread of lines 61-66:
`{ ...box, lastSeen, ...{ ...prev, ...box, lastSeen } }`.
A key present on `box` wins; a key only present on `prev` survives; `lastSeen`
is set to `now` last.  Mandatory fields therefore come from `box`, optional
fields fall back from `box` to `prev`. -/
def mergeBox (prev : TrackedBox) (b : Box) (now : Rat) : TrackedBox :=
  { toBox :=
      { track_id := b.track_id.orElse (fun _ => prev.track_id)
        label_id := b.label_id
        label_name := b.label_name.orElse (fun _ => prev.label_name)
        bbox := b.bbox
        conf := b.conf.orElse (fun _ => prev.conf)
        score := b.score.orElse (fun _ => prev.score) }
    lastSeen := some now }

/-- Association-list model of the JS `Map` built on lines 50-52. -/
abbrev TrackMap := List (Int × TrackedBox)

/-- `Map.set` semantics: overwrite in place when the key exists, append
otherwise. -/
def mapSet (m : TrackMap) (k : Int) (v : TrackedBox) : TrackMap :=
  if m.any (fun p => p.1 == k) then
    m.map (fun p => if p.1 == k then (k, v) else p)
  else
    m ++ [(k, v)]

/-- `new Map(prevBoxes.map(b => [b.track_id ?? b.label_id, b]))` (lines 50-52):
entries are inserted left to right, a later entry with the same key wins. -/
def mkMap (bs : List TrackedBox) : TrackMap :=
  bs.foldl (fun m b => mapSet m (tkey b) b) []

/-- `Map.get`. -/
def mapGet (m : TrackMap) (k : Int) : Option TrackedBox :=
  (m.find? (fun p => p.1 == k)).map (fun p => p.2)

/-- `Map.delete`. -/
def mapDelete (m : TrackMap) (k : Int) : TrackMap :=
  m.filter (fun p => p.1 != k)

/-- The loop of lines 56-69: for each detection of the active frame push the
merged (or freshly stamped) box and delete its key from the previous-tick map.
Returns the pushed boxes and the residual map consumed by lines 71-76. -/
def processBoxes (now : Rat) : List Box → TrackMap → List TrackedBox × TrackMap
  | [], m => ([], m)
  | b :: rest, m =>
      let k := bkey b
      let pushed :=
        match mapGet m k with
        | some prev => mergeBox prev b now
        | none => stampBox b now
      let result := processBoxes now rest (mapDelete m k)
      (pushed :: result.1, result.2)

/-- Lines 71-76: every residual previous box is kept, unchanged, when
`lastSeen <= now && now - lastSeen <= BOX_HOLD_DURATION` with
`lastSeen = prev.lastSeen ?? now`; otherwise it is dropped. -/
def heldBoxes (m : TrackMap) (hold now : Rat) : List TrackedBox :=
  m.filterMap (fun p =>
    let ls := p.2.lastSeen.getD now
    if ls ≤ now ∧ now - ls ≤ hold then some { p.2 with lastSeen := some ls }
    else none)

/-- The `setCurrentBoxes` updater body (lines 42-79), with the hold window as a
parameter instantiated with `BOX_HOLD_DURATION` by the tick. -/
def updateBoxes (hold : Rat) (frameBoxes : List Box) (prevBoxes : List TrackedBox)
    (now : Rat) (isSeeking : Bool) : List TrackedBox :=
  if isSeeking then
    frameBoxes.map (fun b => stampBox b now)
  else
    let r := processBoxes now frameBoxes (mkMap prevBoxes)
    r.1 ++ heldBoxes r.2 hold now

/-- Line 39: `video.seeking || Math.abs(now - previousTime) > 0.1`. -/
def isSeekingOf (mediaSeeking : Bool) (now prevTime : Rat) : Bool :=
  mediaSeeking || decide (1/10 < |now - prevTime|)

/-- The runtime error raised by a property access on `undefined`. -/
inductive JsError where
  | typeError
deriving DecidableEq, Repr

/-- One run of `update` (lines 30-79), excluding the re-scheduling: read the
active frame, detect seeking, produce the next `currentBoxes`.  When the frame
list is empty, `frame` is `undefined` and the later `frame.boxes` access
throws a TypeError, modelled as `Except.error`. -/
def tick (frames : List Frame) (prevBoxes : List TrackedBox)
    (now prevTime : Rat) (mediaSeeking : Bool) : Except JsError (List TrackedBox) :=
  match activeFrame frames now with
  | none => .error .typeError
  | some frame =>
      .ok (updateBoxes BOX_HOLD_DURATION (frame.boxes.getD []) prevBoxes now
        (isSeekingOf mediaSeeking now prevTime))

/-! ## Focus classifier (lines 341-364) -/

/-- Lines 342-345. -/
def isCentered (b : Box) : Bool :=
  let centerX := b.bbox.x + b.bbox.w / 2
  let centerY := b.bbox.y + b.bbox.h / 2
  decide (1/4 < centerX) && decide (centerX < 3/4) &&
    decide (1/4 < centerY) && decide (centerY < 3/4)

/-- Line 346: `w * h < 0.05`. -/
def isSmallBox (b : Box) : Bool :=
  decide (b.bbox.w * b.bbox.h < 1/20)

/-- Line 347: `confidence === undefined || confidence > 0.5`. -/
def hasConfidence (b : Box) : Bool :=
  match confidence b with
  | none => true
  | some c => decide (1/2 < c)

/-- Line 352: `bottomEdge > 0.85`. -/
def isBottom (b : Box) : Bool :=
  decide (17/20 < b.bbox.y + b.bbox.h)

/-- Line 353: `x < 0.15`. -/
def isLeftSide (b : Box) : Bool :=
  decide (b.bbox.x < 3/20)

/-- Line 354: `rightEdge > 0.85`. -/
def isRightSide (b : Box) : Bool :=
  decide (17/20 < b.bbox.x + b.bbox.w)

/-- Line 355. -/
def isBlockingControls (b : Box) : Bool :=
  isBottom b && (isLeftSide b || isRightSide b)

/-- Lines 357-358. -/
def isFocused (b : Box) : Bool :=
  (isCentered b || isSmallBox b) && hasConfidence b && !isBlockingControls b

/-- Line 361: `Math.max(0, bottomEdge - controlTopBoundary)`. -/
def overlapDepth (b : Box) : Rat :=
  max 0 (b.bbox.y + b.bbox.h - (1 - controlZoneRatio))

/-- Line 362: `h > 0 ? Math.min(1, overlapDepth / h) : 0`. -/
def overlapRatio (b : Box) : Rat :=
  if 0 < b.bbox.h then min 1 (overlapDepth b / b.bbox.h) else 0

/-- Line 364: `isFocused && overlapRatio < 1`. -/
def hasInteractiveRegion (b : Box) : Bool :=
  isFocused b && decide (overlapRatio b < 1)

/-! ## Frame Index lemmas -/

/-- For a strictly sorted tail headed by `cur` with `cur.t ≤ t`, the scan
returns a member of the list with the greatest timestamp among those `≤ t`. -/
theorem frameScan_spec (t : Rat) :
    ∀ (fs : List Frame) (cur : Frame),
      List.Pairwise (fun a b => a.t < b.t) (cur :: fs) → cur.t ≤ t →
      frameScan cur fs t ∈ cur :: fs ∧ (frameScan cur fs t).t ≤ t ∧
        ∀ g ∈ cur :: fs, g.t ≤ t → g.t ≤ (frameScan cur fs t).t := by
  intro fs
  induction fs with
  | nil =>
      intro cur _ hle
      refine ⟨List.mem_cons_self _ _, hle, ?_⟩
      intro g hg _
      rcases List.mem_singleton.mp hg with rfl
      exact le_refl _
  | cons f rest ih =>
      intro cur hpw hle
      rcases List.pairwise_cons.mp hpw with ⟨hcur, hpw'⟩
      by_cases hlt : t < f.t
      · have hscan : frameScan cur (f :: rest) t = cur := by
          simp [frameScan, hlt]
        refine ⟨by simp [hscan], by simp [hscan, hle], ?_⟩
        intro g hg hgle
        rw [hscan]
        rcases List.mem_cons.mp hg with rfl | hg'
        · exact le_refl _
        · exfalso
          rcases List.mem_cons.mp hg' with rfl | hg''
          · exact absurd hgle (not_le.mpr hlt)
          · have : f.t < g.t := (List.pairwise_cons.mp hpw').1 g hg''
            have : t < g.t := lt_trans hlt this
            exact absurd hgle (not_le.mpr this)
      · have hfle : f.t ≤ t := not_lt.mp hlt
        have hscan : frameScan cur (f :: rest) t = frameScan f rest t := by
          simp [frameScan, hlt]
        rw [hscan]
        obtain ⟨hmem, hlet, hmax⟩ := ih f hpw' hfle
        refine ⟨List.mem_cons_of_mem _ hmem, hlet, ?_⟩
        intro g hg hgle
        rcases List.mem_cons.mp hg with rfl | hg'
        · have hgf : g.t < f.t := hcur f (List.mem_cons_self _ _)
          exact le_trans (le_of_lt hgf) (hmax f (List.mem_cons_self _ _) hfle)
        · exact hmax g hg' hgle

/-- In a strictly timestamp-sorted list, two members with the same timestamp
are the same frame. -/
theorem pairwise_lt_inj {l : List Frame}
    (h : List.Pairwise (fun a b => a.t < b.t) l) :
    ∀ {a b : Frame}, a ∈ l → b ∈ l → a.t = b.t → a = b := by
  induction l with
  | nil => intro a b ha; exact absurd ha (List.not_mem_nil a)
  | cons x xs ih =>
      intro a b ha hb heq
      rcases List.pairwise_cons.mp h with ⟨hx, hxs⟩
      rcases List.mem_cons.mp ha with rfl | ha' <;>
        rcases List.mem_cons.mp hb with rfl | hb'
      · rfl
      · exact absurd heq (ne_of_lt (hx b hb'))
      · exact absurd heq.symm (ne_of_lt (hx a ha'))
      · exact ih hxs ha' hb' heq

/-- C4: on a non-empty, strictly ascending frame list the Frame Index returns
the frame with the greatest timestamp ≤ t; a query before the first timestamp
returns the first frame; querying at each frame's own timestamp returns that
exact frame. -/
theorem frameIndex_correct (f0 : Frame) (rest : List Frame) (t : Rat)
    (hs : List.Pairwise (fun a b => a.t < b.t) (f0 :: rest)) :
    (t < f0.t → activeFrame (f0 :: rest) t = some f0) ∧
    (f0.t ≤ t → ∃ f, activeFrame (f0 :: rest) t = some f ∧ f ∈ f0 :: rest ∧
      f.t ≤ t ∧ ∀ g ∈ f0 :: rest, g.t ≤ t → g.t ≤ f.t) ∧
    (∀ f ∈ f0 :: rest, activeFrame (f0 :: rest) f.t = some f) := by
  have hunfold : ∀ s : Rat,
      activeFrame (f0 :: rest) s =
        some (if s < f0.t then f0 else frameScan f0 rest s) := by
    intro s
    simp [activeFrame, frameScan]
  refine ⟨?_, ?_, ?_⟩
  · intro hlt
    rw [hunfold, if_pos hlt]
  · intro hle
    rw [hunfold, if_neg (not_lt.mpr hle)]
    obtain ⟨hmem, hlet, hmax⟩ := frameScan_spec t rest f0 hs hle
    exact ⟨frameScan f0 rest t, rfl, hmem, hlet, hmax⟩
  · intro f hf
    rcases List.mem_cons.mp hf with rfl | hf'
    · rw [hunfold, if_neg (lt_irrefl f.t)]
      obtain ⟨hmem, _, hmax⟩ := frameScan_spec f.t rest f hs (le_refl _)
      have hft : f.t ≤ (frameScan f rest f.t).t :=
        hmax f (List.mem_cons_self _ _) (le_refl _)
      obtain ⟨_, hlet, _⟩ := frameScan_spec f.t rest f hs (le_refl _)
      have : (frameScan f rest f.t).t = f.t := le_antisymm hlet hft
      exact congrArg some (pairwise_lt_inj hs hmem (List.mem_cons_self _ _) this)
    · have hle : f0.t ≤ f.t :=
        le_of_lt ((List.pairwise_cons.mp hs).1 f hf')
      rw [hunfold, if_neg (not_lt.mpr hle)]
      obtain ⟨hmem, hlet, hmax⟩ := frameScan_spec f.t rest f0 hs hle
      have hft : f.t ≤ (frameScan f0 rest f.t).t := hmax f hf (le_refl _)
      have : (frameScan f0 rest f.t).t = f.t := le_antisymm hlet hft
      exact congrArg some (pairwise_lt_inj hs hmem hf this)

/-- Concrete frames for witnesses. -/
def frameA : Frame := ⟨0, some [⟨some 1, 1, none, ⟨2/5, 2/5, 1/10, 1/10⟩, none, none⟩]⟩

/-- Second concrete frame. -/
def frameB : Frame := ⟨5, some []⟩

/-- Witness for C4 at a concrete two-frame index: querying at the second
frame's own timestamp returns that exact frame. -/
theorem frameIndex_correct_witness :
    activeFrame [frameA, frameB] frameB.t = some frameB := by
  have h := frameIndex_correct frameA [frameB] frameB.t (by with_unfolding_all decide)
  exact h.2.2 frameB (by with_unfolding_all decide)

/-- C1: on an empty frame list the lookup silently yields no frame
(`frames[0]` is `undefined`) and the tick then throws a TypeError when it
dereferences `frame.boxes`; no designated `EmptyData` failure exists. -/
theorem emptyFrames_crash :
    activeFrame ([] : List Frame) 0 = none ∧
      tick [] [] 0 0 false = .error .typeError :=
  ⟨rfl, rfl⟩

/-- C5: on a detected seek (media seeking flag, or time delta above the 0.1s
threshold) the tracker output is exactly the active frame's boxes, each
stamped with `lastSeen = now`; all held-over state is discarded. -/
theorem seek_discards_state (frames : List Frame) (prevBoxes : List TrackedBox)
    (now prevTime : Rat) (ms : Bool) (frame : Frame)
    (hf : activeFrame frames now = some frame)
    (hseek : ms = true ∨ 1/10 < |now - prevTime|) :
    tick frames prevBoxes now prevTime ms =
      .ok ((frame.boxes.getD []).map (fun b => stampBox b now)) := by
  have hsk : isSeekingOf ms now prevTime = true := by
    rcases hseek with h | h
    · simp [isSeekingOf, h]
    · have h' : (10 : Rat)⁻¹ < |now - prevTime| := by rw [← one_div]; exact h
      simp [isSeekingOf, h']
  simp [tick, hf, updateBoxes, hsk]

/-- Witness for C5: a concrete seek tick (delta 2s > 0.1s) drops a held box
and returns only the active frame's stamped boxes. -/
theorem seek_discards_state_witness :
    tick [frameA, frameB] [⟨⟨some 7, 2, none, ⟨0, 0, 1/10, 1/10⟩, none, none⟩, some 1⟩]
        3 1 false =
      .ok ((frameA.boxes.getD []).map (fun b => stampBox b 3)) := by
  have h := seek_discards_state [frameA, frameB]
    [⟨⟨some 7, 2, none, ⟨0, 0, 1/10, 1/10⟩, none, none⟩, some 1⟩]
    3 1 false frameA (by with_unfolding_all decide) (Or.inr (by with_unfolding_all decide))
  exact h

/-! ## Box Tracker lemmas -/

/-- The boxes pushed for the active frame carry exactly the new detections'
bounding boxes, in order: the spread replaces `bbox`, it never blends. -/
theorem processBoxes_fst_bbox (now : Rat) :
    ∀ (fbs : List Box) (m : TrackMap),
      ((processBoxes now fbs m).1).map (fun x => x.bbox) = fbs.map Box.bbox := by
  intro fbs
  induction fbs with
  | nil => intro m; simp [processBoxes]
  | cons b rest ih =>
      intro m
      simp only [processBoxes, List.map_cons]
      congr 1
      · cases hm : mapGet m (bkey b) with
        | none => simp [stampBox]
        | some prev => simp [mergeBox]
      · exact ih (mapDelete m (bkey b))

/-- One pushed box per detection of the active frame. -/
theorem processBoxes_fst_length (now : Rat) :
    ∀ (fbs : List Box) (m : TrackMap),
      (processBoxes now fbs m).1.length = fbs.length := by
  intro fbs
  induction fbs with
  | nil => intro m; simp [processBoxes]
  | cons b rest ih =>
      intro m
      simp only [processBoxes, List.length_cons]
      exact congrArg Nat.succ (ih (mapDelete m (bkey b)))

/-- C2 (amended): during continuous playback the tracker output starts with
one box per detection of the active frame and the bbox of each of those boxes
is exactly the new detection's bbox — a straight replacement, with no
interpolation; in particular the merged box of a matched identity takes the
detection's bbox verbatim. -/
theorem tracked_bbox_straight_replace (hold now : Rat) (fbs : List Box)
    (prevBoxes : List TrackedBox) :
    (∀ (prev : TrackedBox) (b : Box), (mergeBox prev b now).bbox = b.bbox) ∧
    ((updateBoxes hold fbs prevBoxes now false).take fbs.length).map
        (fun x => x.bbox) = fbs.map Box.bbox := by
  constructor
  · intro prev b
    simp [mergeBox]
  · have hu : updateBoxes hold fbs prevBoxes now false =
        (processBoxes now fbs (mkMap prevBoxes)).1 ++
          heldBoxes (processBoxes now fbs (mkMap prevBoxes)).2 hold now := by
      simp [updateBoxes]
    rw [hu, ← processBoxes_fst_length now fbs (mkMap prevBoxes), List.take_left]
    exact processBoxes_fst_bbox now fbs (mkMap prevBoxes)

/-- Concrete previous tracked box (bbox at x = 0). -/
def prevTB : TrackedBox := ⟨⟨some 1, 1, none, ⟨0, 0, 1/10, 1/10⟩, none, none⟩, some 1⟩

/-- Concrete new detection with the same identity but a moved bbox. -/
def newDet : Box := ⟨some 1, 1, none, ⟨1/2, 0, 1/10, 1/10⟩, none, none⟩

/-- C2 counterexample: on a continuous tick (delta 0.05s, no seek) the matched
box's output bbox is exactly the new detection's bbox even though the previous
bbox differs — a straight replacement, not a weighted blend. -/
theorem merge_not_blended :
    updateBoxes BOX_HOLD_DURATION [newDet] [prevTB] (21/20) false =
      [⟨⟨some 1, 1, none, ⟨1/2, 0, 1/10, 1/10⟩, none, none⟩, some (21/20)⟩] ∧
    (updateBoxes BOX_HOLD_DURATION [newDet] [prevTB] (21/20) false).map
        (fun x => x.bbox) = [newDet.bbox] ∧
    prevTB.bbox ≠ newDet.bbox ∧
    isSeekingOf false (21/20) 1 = false := by
  refine ⟨?_, ?_, ?_, ?_⟩ <;> with_unfolding_all decide

/-- A list whose image under `f` has no duplicates has `f` injective on its
members. -/
theorem nodup_map_inj {α β : Type} (f : α → β) :
    ∀ {l : List α}, (l.map f).Nodup →
      ∀ {a b : α}, a ∈ l → b ∈ l → f a = f b → a = b := by
  intro l
  induction l with
  | nil => intro _ a b ha; exact absurd ha (List.not_mem_nil a)
  | cons x xs ih =>
      intro hnd a b ha hb hf
      rw [List.map_cons, List.nodup_cons] at hnd
      rcases List.mem_cons.mp ha with rfl | ha' <;>
        rcases List.mem_cons.mp hb with rfl | hb'
      · rfl
      · exfalso; apply hnd.1; rw [hf]; exact List.mem_map.mpr ⟨b, hb', rfl⟩
      · exfalso; apply hnd.1; rw [← hf]; exact List.mem_map.mpr ⟨a, ha', rfl⟩
      · exact ih hnd.2 ha' hb' hf

/-- Membership after a `Map.set`. -/
theorem mapSet_mem {m : TrackMap} {k : Int} {v : TrackedBox} {q : Int × TrackedBox}
    (hq : q ∈ mapSet m k v) : q ∈ m ∨ q = (k, v) := by
  unfold mapSet at hq
  by_cases h : m.any (fun p => p.1 == k) = true
  · rw [if_pos h] at hq
    rcases List.mem_map.mp hq with ⟨p, hp, hpe⟩
    by_cases hk : (p.1 == k) = true
    · rw [if_pos hk] at hpe
      exact Or.inr hpe.symm
    · rw [if_neg hk] at hpe
      exact Or.inl (hpe ▸ hp)
  · rw [if_neg h] at hq
    rcases List.mem_append.mp hq with h' | h'
    · exact Or.inl h'
    · exact Or.inr (List.mem_singleton.mp h')

/-- If no entry has key `k`, then `k` is not among the keys. -/
theorem keys_not_mem_of_any_false {m : TrackMap} {k : Int}
    (h : m.any (fun p => p.1 == k) = false) : k ∉ m.map Prod.fst := by
  intro hk
  rcases List.mem_map.mp hk with ⟨p, hp, rfl⟩
  have : m.any (fun q => q.1 == p.1) = true :=
    List.any_eq_true.mpr ⟨p, hp, by simp⟩
  rw [h] at this
  exact Bool.false_ne_true this

/-- `Map.set` on a present key rewrites a value in place: keys unchanged. -/
theorem mapSet_keys_present {m : TrackMap} {k : Int} {v : TrackedBox}
    (h : m.any (fun p => p.1 == k) = true) :
    (mapSet m k v).map Prod.fst = m.map Prod.fst := by
  unfold mapSet
  rw [if_pos h, List.map_map]
  apply List.map_congr_left
  intro p _
  by_cases hk : (p.1 == k) = true
  · simp only [Function.comp_apply, if_pos hk]
    exact (beq_iff_eq.mp hk).symm
  · simp only [Function.comp_apply, if_neg hk]

/-- `Map.set` on an absent key appends it. -/
theorem mapSet_keys_absent {m : TrackMap} {k : Int} {v : TrackedBox}
    (h : m.any (fun p => p.1 == k) = false) :
    (mapSet m k v).map Prod.fst = m.map Prod.fst ++ [k] := by
  unfold mapSet
  rw [if_neg (by simp [h]), List.map_append]
  rfl

/-- `Map.set` preserves distinctness of keys. -/
theorem mapSet_keys_nodup {m : TrackMap} {k : Int} {v : TrackedBox}
    (h : (m.map Prod.fst).Nodup) : ((mapSet m k v).map Prod.fst).Nodup := by
  cases ha : m.any (fun p => p.1 == k) with
  | true => rw [mapSet_keys_present ha]; exact h
  | false =>
      rw [mapSet_keys_absent ha]
      refine List.Nodup.append h (List.nodup_singleton k) ?_
      intro x hx hk
      rcases List.mem_singleton.mp hk with rfl
      exact keys_not_mem_of_any_false ha hx

/-- Every entry of the tracker map built by `mkMap` keys its value by the
value's own identity. -/
theorem mkMap_aux_inv (bs : List TrackedBox) :
    ∀ (acc : TrackMap), (∀ q ∈ acc, q.1 = tkey q.2) →
      ∀ q ∈ bs.foldl (fun m b => mapSet m (tkey b) b) acc, q.1 = tkey q.2 := by
  induction bs with
  | nil => intro acc hacc q hq; exact hacc q hq
  | cons b rest ih =>
      intro acc hacc q hq
      rw [List.foldl_cons] at hq
      refine ih (mapSet acc (tkey b) b) ?_ q hq
      intro p hp
      rcases mapSet_mem hp with h | rfl
      · exact hacc p h
      · rfl

/-- Specialization of `mkMap_aux_inv` to the empty accumulator. -/
theorem mkMap_inv {bs : List TrackedBox} : ∀ q ∈ mkMap bs, q.1 = tkey q.2 :=
  mkMap_aux_inv bs [] (fun q hq => absurd hq (List.not_mem_nil q))

/-- A JS `Map` never holds two entries with the same key. -/
theorem mkMap_aux_keys_nodup (bs : List TrackedBox) :
    ∀ (acc : TrackMap), ((acc.map Prod.fst)).Nodup →
      (((bs.foldl (fun m b => mapSet m (tkey b) b) acc).map Prod.fst)).Nodup := by
  induction bs with
  | nil => intro acc h; exact h
  | cons b rest ih =>
      intro acc h
      rw [List.foldl_cons]
      exact ih _ (mapSet_keys_nodup h)

/-- Keys of `mkMap` are distinct. -/
theorem mkMap_keys_nodup {bs : List TrackedBox} :
    ((mkMap bs).map Prod.fst).Nodup :=
  mkMap_aux_keys_nodup bs [] (by simp)

/-- Membership after a `Map.delete`. -/
theorem mapDelete_mem_iff {m : TrackMap} {k : Int} {q : Int × TrackedBox} :
    q ∈ mapDelete m k ↔ q ∈ m ∧ q.1 ≠ k := by
  unfold mapDelete
  rw [List.mem_filter]
  constructor
  · rintro ⟨h1, h2⟩
    exact ⟨h1, by simpa using h2⟩
  · rintro ⟨h1, h2⟩
    exact ⟨h1, by simpa using h2⟩

/-- `Map.delete` removes entries, never adds. -/
theorem mapDelete_sublist (m : TrackMap) (k : Int) :
    List.Sublist (mapDelete m k) m :=
  List.filter_sublist m

/-- The residual map shrinks: it is a sublist of the input map. -/
theorem processBoxes_snd_sublist (now : Rat) :
    ∀ (fbs : List Box) (m : TrackMap),
      List.Sublist (processBoxes now fbs m).2 m := by
  intro fbs
  induction fbs with
  | nil => intro m; simp [processBoxes]
  | cons b rest ih =>
      intro m
      simp only [processBoxes]
      exact (ih (mapDelete m (bkey b))).trans (mapDelete_sublist m (bkey b))

/-- Entries surviving the frame loop carry none of the frame's keys. -/
theorem processBoxes_snd_mem (now : Rat) :
    ∀ (fbs : List Box) (m : TrackMap) (q : Int × TrackedBox),
      q ∈ (processBoxes now fbs m).2 → q ∈ m ∧ ∀ b ∈ fbs, q.1 ≠ bkey b := by
  intro fbs
  induction fbs with
  | nil =>
      intro m q hq
      simp only [processBoxes] at hq
      exact ⟨hq, fun b hb => absurd hb (List.not_mem_nil b)⟩
  | cons b rest ih =>
      intro m q hq
      simp only [processBoxes] at hq
      obtain ⟨hq1, hq2⟩ := ih (mapDelete m (bkey b)) q hq
      obtain ⟨hm, hne⟩ := mapDelete_mem_iff.mp hq1
      refine ⟨hm, ?_⟩
      intro c hc
      rcases List.mem_cons.mp hc with rfl | hc'
      · exact hne
      · exact hq2 c hc'

/-- An entry whose key matches no frame box survives the frame loop. -/
theorem processBoxes_snd_keep (now : Rat) :
    ∀ (fbs : List Box) (m : TrackMap) (q : Int × TrackedBox),
      q ∈ m → (∀ b ∈ fbs, q.1 ≠ bkey b) → q ∈ (processBoxes now fbs m).2 := by
  intro fbs
  induction fbs with
  | nil => intro m q hq _; simpa [processBoxes] using hq
  | cons b rest ih =>
      intro m q hq hne
      simp only [processBoxes]
      refine ih (mapDelete m (bkey b)) q ?_ ?_
      · exact mapDelete_mem_iff.mpr ⟨hq, hne b (List.mem_cons_self b rest)⟩
      · intro c hc
        exact hne c (List.mem_cons_of_mem b hc)

/-- `stampBox` keeps the detection's tracker key. -/
theorem stampBox_key (b : Box) (now : Rat) : tkey (stampBox b now) = bkey b := rfl

/-- `mergeBox` keeps the tracker key when the previous box was keyed by the
same identity. -/
theorem mergeBox_key {prev : TrackedBox} {b : Box} {now : Rat}
    (h : tkey prev = bkey b) : tkey (mergeBox prev b now) = bkey b := by
  unfold tkey bkey at *
  cases htid : b.track_id with
  | some s => simp [mergeBox, htid, Option.orElse]
  | none =>
      rw [htid, Option.getD_none] at h
      simp only [mergeBox, htid, Option.orElse]
      cases hp : prev.toBox.track_id with
      | some v =>
          rw [hp, Option.getD_some] at h
          simp [hp, h]
      | none => simp [hp]

/-- The boxes pushed for the active frame are keyed, in order, by the frame
detections' keys. -/
theorem processBoxes_fst_keys (now : Rat) :
    ∀ (fbs : List Box) (m : TrackMap), (∀ q ∈ m, q.1 = tkey q.2) →
      ((processBoxes now fbs m).1).map tkey = fbs.map bkey := by
  intro fbs
  induction fbs with
  | nil => intro m _; simp [processBoxes]
  | cons b rest ih =>
      intro m hm
      simp only [processBoxes, List.map_cons]
      congr 1
      · cases hg : mapGet m (bkey b) with
        | none => exact stampBox_key b now
        | some prev =>
            refine mergeBox_key ?_
            unfold mapGet at hg
            cases hf : m.find? (fun p => p.1 == bkey b) with
            | none => rw [hf] at hg; simp at hg
            | some q =>
                rw [hf] at hg
                simp only [Option.map_some'] at hg
                have hq1 : (q.1 == bkey b) = true :=
                  @List.find?_some _ (fun p => p.1 == bkey b) q m hf
                have hqm : q ∈ m := List.mem_of_find?_eq_some hf
                rw [← Option.some.inj hg, ← hm q hqm]
                exact beq_iff_eq.mp hq1
      · refine ih (mapDelete m (bkey b)) ?_
        intro q hq
        exact hm q (mapDelete_mem_iff.mp hq).1

/-- Membership in the held-over output. -/
theorem heldBoxes_mem {m : TrackMap} {hold now : Rat} {x : TrackedBox} :
    x ∈ heldBoxes m hold now ↔
      ∃ q ∈ m,
        (q.2.lastSeen.getD now ≤ now ∧ now - q.2.lastSeen.getD now ≤ hold) ∧
        x = { q.2 with lastSeen := some (q.2.lastSeen.getD now) } := by
  unfold heldBoxes
  rw [List.mem_filterMap]
  constructor
  · rintro ⟨q, hq, he⟩
    dsimp only at he
    by_cases hc : q.2.lastSeen.getD now ≤ now ∧ now - q.2.lastSeen.getD now ≤ hold
    · rw [if_pos hc] at he
      exact ⟨q, hq, hc, (Option.some.inj he).symm⟩
    · rw [if_neg hc] at he
      exact absurd he (by simp)
  · rintro ⟨q, hq, hc, rfl⟩
    exact ⟨q, hq, by dsimp only; rw [if_pos hc]⟩

/-- The held-over boxes' keys form a sublist of the map's keys. -/
theorem heldBoxes_keys_sublist {hold now : Rat} :
    ∀ {m : TrackMap}, (∀ q ∈ m, q.1 = tkey q.2) →
      List.Sublist ((heldBoxes m hold now).map tkey) (m.map Prod.fst) := by
  intro m
  induction m with
  | nil => intro _; simp [heldBoxes]
  | cons q m' ih =>
      intro hinv
      have htail := ih (fun p hp => hinv p (List.mem_cons_of_mem q hp))
      by_cases hc : q.2.lastSeen.getD now ≤ now ∧ now - q.2.lastSeen.getD now ≤ hold
      · have hstep : heldBoxes (q :: m') hold now =
            { q.2 with lastSeen := some (q.2.lastSeen.getD now) } ::
              heldBoxes m' hold now := by
          simp only [heldBoxes, List.filterMap_cons]
          rw [if_pos hc]
        rw [hstep, List.map_cons, List.map_cons]
        have hk : tkey { q.2 with lastSeen := some (q.2.lastSeen.getD now) } = q.1 :=
          (hinv q (List.mem_cons_self q m')).symm
        rw [hk]
        exact htail.cons₂ q.1
      · have hstep : heldBoxes (q :: m') hold now = heldBoxes m' hold now := by
          simp only [heldBoxes, List.filterMap_cons]
          rw [if_neg hc]
        rw [hstep, List.map_cons]
        exact htail.cons q.1

/-- Folding distinct-key insertions into an accumulator free of those keys
just appends the entries in order. -/
theorem mkMap_aux_eq (bs : List TrackedBox) :
    ∀ (acc : TrackMap), (∀ b ∈ bs, ∀ q ∈ acc, q.1 ≠ tkey b) →
      (bs.map tkey).Nodup →
      bs.foldl (fun m b => mapSet m (tkey b) b) acc =
        acc ++ bs.map (fun b => (tkey b, b)) := by
  induction bs with
  | nil => intro acc _ _; simp
  | cons b rest ih =>
      intro acc hacc hnd
      rw [List.map_cons, List.nodup_cons] at hnd
      rw [List.foldl_cons]
      have hset : mapSet acc (tkey b) b = acc ++ [(tkey b, b)] := by
        unfold mapSet
        rw [if_neg]
        intro hany
        rcases List.any_eq_true.mp hany with ⟨q, hq, hqe⟩
        exact hacc b (List.mem_cons_self b rest) q hq (beq_iff_eq.mp hqe)
      rw [hset, ih (acc ++ [(tkey b, b)]) ?_ hnd.2]
      · simp
      · intro c hc q hq
        rcases List.mem_append.mp hq with hq' | hq'
        · exact hacc c (List.mem_cons_of_mem b hc) q hq'
        · rcases List.mem_singleton.mp hq' with rfl
          intro he
          apply hnd.1
          have he' : tkey b = tkey c := he
          rw [he']
          exact List.mem_map.mpr ⟨c, hc, rfl⟩

/-- With distinct identities, the JS `Map` of the previous boxes is just the
key-value pairing in order. -/
theorem mkMap_eq_of_nodup {bs : List TrackedBox} (h : (bs.map tkey).Nodup) :
    mkMap bs = bs.map (fun b => (tkey b, b)) := by
  have := mkMap_aux_eq bs [] (fun b _ q hq => absurd hq (List.not_mem_nil q)) h
  simpa [mkMap] using this

/-- Re-stamping a tracked box with its own `lastSeen` is the identity. -/
theorem trackedBox_eta {p : TrackedBox} {l : Rat} (hl : p.lastSeen = some l) :
    { p with lastSeen := some l } = p := by
  cases p with
  | mk tb ls =>
      dsimp at hl
      rw [hl]

/-- C7 (amended): provided the active frame's detections carry pairwise
distinct identity keys, no identity appears twice in the tracker output, on
seek ticks and continuous ticks alike.  The restriction on the frame is
necessary: the loop never deduplicates the frame's own boxes. -/
theorem no_duplicate_identities (hold now : Rat) (fbs : List Box)
    (prevBoxes : List TrackedBox) (sk : Bool)
    (hnd : (fbs.map bkey).Nodup) :
    ((updateBoxes hold fbs prevBoxes now sk).map tkey).Nodup := by
  cases sk with
  | true =>
      have hu : updateBoxes hold fbs prevBoxes now true =
          fbs.map (fun b => stampBox b now) := by simp [updateBoxes]
      rw [hu, List.map_map]
      exact hnd
  | false =>
      have hu : updateBoxes hold fbs prevBoxes now false =
          (processBoxes now fbs (mkMap prevBoxes)).1 ++
            heldBoxes (processBoxes now fbs (mkMap prevBoxes)).2 hold now := by
        simp [updateBoxes]
      rw [hu, List.map_append]
      have hinv : ∀ q ∈ mkMap prevBoxes, q.1 = tkey q.2 := mkMap_inv
      have hinv2 : ∀ q ∈ (processBoxes now fbs (mkMap prevBoxes)).2,
          q.1 = tkey q.2 :=
        fun q hq =>
          hinv q ((processBoxes_snd_sublist now fbs (mkMap prevBoxes)).subset hq)
      have hkeys2 :
          ((processBoxes now fbs (mkMap prevBoxes)).2.map Prod.fst).Nodup :=
        List.Nodup.sublist
          ((processBoxes_snd_sublist now fbs (mkMap prevBoxes)).map Prod.fst)
          mkMap_keys_nodup
      refine List.Nodup.append ?_ ?_ ?_
      · rw [processBoxes_fst_keys now fbs (mkMap prevBoxes) hinv]
        exact hnd
      · exact List.Nodup.sublist (heldBoxes_keys_sublist hinv2) hkeys2
      · intro a ha hb
        rw [processBoxes_fst_keys now fbs (mkMap prevBoxes) hinv] at ha
        rcases List.mem_map.mp ha with ⟨c, hcfs, rfl⟩
        rcases List.mem_map.mp hb with ⟨x, hx, hxe⟩
        have hxk : tkey x ∈
            (processBoxes now fbs (mkMap prevBoxes)).2.map Prod.fst :=
          (heldBoxes_keys_sublist hinv2).subset (List.mem_map.mpr ⟨x, hx, rfl⟩)
        rcases List.mem_map.mp hxk with ⟨q, hq, hqe⟩
        obtain ⟨_, hno⟩ := processBoxes_snd_mem now fbs (mkMap prevBoxes) q hq
        exact hno c hcfs (by rw [hqe, hxe])

/-- First of two detections sharing the identity key 5. -/
def dupA : Box := ⟨some 5, 1, none, ⟨0, 0, 1/10, 1/10⟩, none, none⟩

/-- Second detection with the same identity key 5. -/
def dupB : Box := ⟨some 5, 2, none, ⟨1/2, 1/2, 1/10, 1/10⟩, none, none⟩

/-- C7 counterexample: a frame containing two boxes with the same tracking
identity key produces an output in which that identity appears twice. -/
theorem duplicate_identity_in_output :
    ((updateBoxes BOX_HOLD_DURATION [dupA, dupB] [] 1 false).map tkey) = [5, 5] ∧
      ¬ ((updateBoxes BOX_HOLD_DURATION [dupA, dupB] [] 1 false).map tkey).Nodup := by
  constructor
  · with_unfolding_all decide
  · with_unfolding_all decide

/-- C6 (amended): during continuous playback a previous tracked box whose
identity is absent from the active frame is kept in the output — entirely
unchanged, `lastSeen` included — exactly when `lastSeen ≤ now` and
`now - lastSeen ≤ hold`; otherwise it is evicted.  The extra `lastSeen ≤ now`
guard (line 73) enforces the no-future-lastSeen invariant and is the one
departure from the claim.  The statement holds for every hold duration,
including 0. -/
theorem holdover_characterization (hold now : Rat) (fbs : List Box)
    (prevBoxes : List TrackedBox) (p : TrackedBox) (l : Rat)
    (hnd : (prevBoxes.map tkey).Nodup) (hp : p ∈ prevBoxes)
    (habs : ∀ b ∈ fbs, bkey b ≠ tkey p) (hl : p.lastSeen = some l) :
    p ∈ updateBoxes hold fbs prevBoxes now false ↔ l ≤ now ∧ now - l ≤ hold := by
  have hm : mkMap prevBoxes = prevBoxes.map (fun b => (tkey b, b)) :=
    mkMap_eq_of_nodup hnd
  have hinv : ∀ q ∈ mkMap prevBoxes, q.1 = tkey q.2 := mkMap_inv
  have hu : updateBoxes hold fbs prevBoxes now false =
      (processBoxes now fbs (mkMap prevBoxes)).1 ++
        heldBoxes (processBoxes now fbs (mkMap prevBoxes)).2 hold now := by
    simp [updateBoxes]
  constructor
  · intro hmem
    rw [hu] at hmem
    rcases List.mem_append.mp hmem with h1 | h2
    · exfalso
      have hk : tkey p ∈ ((processBoxes now fbs (mkMap prevBoxes)).1).map tkey :=
        List.mem_map.mpr ⟨p, h1, rfl⟩
      rw [processBoxes_fst_keys now fbs (mkMap prevBoxes) hinv] at hk
      rcases List.mem_map.mp hk with ⟨b, hb, he⟩
      exact habs b hb he
    · rcases heldBoxes_mem.mp h2 with ⟨q, hq, hc, he⟩
      have hqm : q ∈ mkMap prevBoxes :=
        (processBoxes_snd_sublist now fbs (mkMap prevBoxes)).subset hq
      rw [hm] at hqm
      rcases List.mem_map.mp hqm with ⟨r, hr, rfl⟩
      have hkey : tkey p = tkey r := by rw [he]; rfl
      have hpr : p = r := nodup_map_inj tkey hnd hp hr hkey
      rw [← hpr] at hc
      rw [hl] at hc
      simp only [Option.getD_some] at hc
      exact hc
  · intro hcond
    rw [hu]
    refine List.mem_append.mpr (Or.inr ?_)
    refine heldBoxes_mem.mpr ⟨(tkey p, p), ?_, ?_, ?_⟩
    · refine processBoxes_snd_keep now fbs (mkMap prevBoxes) (tkey p, p) ?_ ?_
      · rw [hm]
        exact List.mem_map.mpr ⟨p, hp, rfl⟩
      · intro b hb
        exact fun he => habs b hb (by rw [← he])
    · dsimp only
      rw [hl]
      simpa using hcond
    · dsimp only
      rw [hl]
      simp only [Option.getD_some]
      exact (trackedBox_eta hl).symm

/-- Witness for C6: a concrete held-over box (absent from the frame, seen
0.1s ago, inside the 0.2s hold window) stays in the output unchanged. -/
theorem holdover_characterization_witness :
    prevTB ∈ updateBoxes BOX_HOLD_DURATION [] [prevTB] (11/10) false := by
  have h := holdover_characterization BOX_HOLD_DURATION (11/10) [] [prevTB]
    prevTB 1 (by with_unfolding_all decide)
    (List.mem_singleton.mpr rfl)
    (fun b hb => absurd hb (List.not_mem_nil b)) rfl
  exact h.mpr (by with_unfolding_all decide)

/-- C6 counterexample: playback moved slightly backward (delta 0.05s, below
the 0.1s seek threshold, so the tick is continuous), the held box was stamped
at 1 which is ahead of now = 0.95; `now - lastSeen = -0.05 ≤ 0.2` satisfies
the claim's retention condition, yet the `lastSeen <= now` guard evicts it. -/
theorem holdover_future_evicted :
    isSeekingOf false (19/20) 1 = false ∧
    (19/20 : Rat) - 1 ≤ BOX_HOLD_DURATION ∧
    prevTB.lastSeen = some 1 ∧
    updateBoxes BOX_HOLD_DURATION [] [prevTB] (19/20) false = [] := by
  refine ⟨?_, ?_, ?_, ?_⟩ <;> with_unfolding_all decide

/-- Witness for C7 at a concrete tick: single detection, distinct keys. -/
theorem no_duplicate_identities_witness :
    ((updateBoxes BOX_HOLD_DURATION [newDet] [prevTB] 1 false).map tkey).Nodup :=
  no_duplicate_identities BOX_HOLD_DURATION 1 [newDet] [prevTB] false
    (by with_unfolding_all decide)


/-- The focus rule exactly as C8 words it: x-center and y-center both in the
CLOSED interval [0.25, 0.75] (or area below 0.05), confidence absent or above
0.5, and not in the reserved control corner. -/
def claimInteractive (b : Box) : Bool :=
  let cx := b.bbox.x + b.bbox.w / 2
  let cy := b.bbox.y + b.bbox.h / 2
  ((decide (1/4 ≤ cx) && decide (cx ≤ 3/4) &&
      decide (1/4 ≤ cy) && decide (cy ≤ 3/4)) ||
    decide (b.bbox.w * b.bbox.h < 1/20)) &&
  (match confidence b with
    | none => true
    | some c => decide (1/2 < c)) &&
  !(decide (17/20 < b.bbox.y + b.bbox.h) &&
    (decide (b.bbox.x < 3/20) || decide (17/20 < b.bbox.x + b.bbox.w)))

/-- C8's rule amended to the code's strict center bounds, spelled as a
proposition following the spec's wording. -/
def claimInteractiveAmended (b : Box) : Prop :=
  ((1/4 < b.bbox.x + b.bbox.w / 2 ∧ b.bbox.x + b.bbox.w / 2 < 3/4 ∧
      1/4 < b.bbox.y + b.bbox.h / 2 ∧ b.bbox.y + b.bbox.h / 2 < 3/4) ∨
    b.bbox.w * b.bbox.h < 1/20) ∧
  (confidence b = none ∨ ∃ c, confidence b = some c ∧ 1/2 < c) ∧
  ¬(17/20 < b.bbox.y + b.bbox.h ∧
    (b.bbox.x < 3/20 ∨ 17/20 < b.bbox.x + b.bbox.w))

/-- A box whose x-center sits exactly on the 0.25 boundary: centered per the
claim's closed interval, not centered per the code's strict comparison. -/
def edgeBox : Box := ⟨none, 3, none, ⟨0, 1/4, 1/2, 1/2⟩, none, none⟩

/-- C8 counterexample: `edgeBox` (center (0.25, 0.5), area 0.25, no
confidence, outside the control corner) is interactive under the claim's
closed intervals but the code marks it not focused. -/
theorem focus_boundary_mismatch :
    claimInteractive edgeBox = true ∧ isFocused edgeBox = false := by
  constructor <;> with_unfolding_all decide

/-- The box of the claim's positive example: centered at (0.5, 0.5), area
0.3, confidence 0.9. -/
def exCenterBox : Box := ⟨none, 4, none, ⟨1/5, 1/4, 3/5, 1/2⟩, some (9/10), none⟩

/-- C8 (amended): the code's focus classifier coincides with the claim's rule
once the center test is strict; a box of positive extent fully inside the
bottom-right control corner is never focused; the claim's concrete centered
example is focused. -/
theorem focus_rules :
    (∀ b : Box, isFocused b = true ↔ claimInteractiveAmended b) ∧
    (∀ b : Box, 0 < b.bbox.w → 0 < b.bbox.h →
      17/20 ≤ b.bbox.x → b.bbox.x + b.bbox.w ≤ 1 →
      17/20 ≤ b.bbox.y → b.bbox.y + b.bbox.h ≤ 1 →
      isFocused b = false) ∧
    isFocused exCenterBox = true := by
  refine ⟨?_, ?_, ?_⟩
  · intro b
    have hc : isCentered b = true ↔
        (1/4 < b.bbox.x + b.bbox.w / 2 ∧ b.bbox.x + b.bbox.w / 2 < 3/4 ∧
          1/4 < b.bbox.y + b.bbox.h / 2 ∧ b.bbox.y + b.bbox.h / 2 < 3/4) := by
      simp [isCentered, and_assoc]
    have hs : isSmallBox b = true ↔ b.bbox.w * b.bbox.h < 1/20 := by
      simp [isSmallBox]
    have hcf : hasConfidence b = true ↔
        (confidence b = none ∨ ∃ c, confidence b = some c ∧ 1/2 < c) := by
      rcases hconf : confidence b with _ | c
      · simp [hasConfidence, hconf]
      · simp [hasConfidence, hconf]
    have hb : isBlockingControls b = true ↔
        (17/20 < b.bbox.y + b.bbox.h ∧
          (b.bbox.x < 3/20 ∨ 17/20 < b.bbox.x + b.bbox.w)) := by
      simp [isBlockingControls, isBottom, isLeftSide, isRightSide]
    unfold isFocused
    rw [Bool.and_eq_true, Bool.and_eq_true, Bool.or_eq_true, Bool.not_eq_true',
      Bool.eq_false_iff, Ne, hc, hs, hcf, hb]
    unfold claimInteractiveAmended
    constructor
    · rintro ⟨⟨h1, h2⟩, h3⟩
      exact ⟨h1, h2, h3⟩
    · rintro ⟨h1, h2, h3⟩
      exact ⟨⟨h1, h2⟩, h3⟩
  · intro b hw hh hx _ hy _
    have h1 : isBottom b = true := by
      unfold isBottom
      rw [decide_eq_true_eq]
      linarith
    have h2 : isRightSide b = true := by
      unfold isRightSide
      rw [decide_eq_true_eq]
      linarith
    unfold isFocused isBlockingControls
    rw [h1, h2]
    simp
  · with_unfolding_all decide

/-- A concrete box of positive extent inside the bottom-right corner. -/
def cornerBox : Box := ⟨none, 6, none, ⟨9/10, 9/10, 1/20, 1/20⟩, none, none⟩

/-- Witness for C8: the corner conjunct applied to `cornerBox`. -/
theorem focus_rules_witness : isFocused cornerBox = false :=
  focus_rules.2.1 cornerBox (by with_unfolding_all decide)
    (by with_unfolding_all decide) (by with_unfolding_all decide)
    (by with_unfolding_all decide) (by with_unfolding_all decide)
    (by with_unfolding_all decide)

/-- C10: the occluded-fraction computation is total, bounded in [0, 1],
yields 0 for degenerate heights, and a box whose vertical extent lies
entirely inside the bottom reserved band gets fraction 1 and hence no
interactive region. -/
theorem overlapRatio_total (b : Box) :
    (0 ≤ overlapRatio b ∧ overlapRatio b ≤ 1) ∧
    (b.bbox.h ≤ 0 → overlapRatio b = 0) ∧
    (0 < b.bbox.h → 1 - controlZoneRatio ≤ b.bbox.y →
      overlapRatio b = 1 ∧ hasInteractiveRegion b = false) := by
  refine ⟨⟨?_, ?_⟩, ?_, ?_⟩
  · unfold overlapRatio
    by_cases hh : 0 < b.bbox.h
    · rw [if_pos hh]
      exact le_min (by norm_num) (div_nonneg (le_max_left 0 _) hh.le)
    · rw [if_neg hh]
  · unfold overlapRatio
    by_cases hh : 0 < b.bbox.h
    · rw [if_pos hh]
      exact min_le_left 1 _
    · rw [if_neg hh]
      norm_num
  · intro hle
    unfold overlapRatio
    rw [if_neg (not_lt.mpr hle)]
  · intro hh hy
    have hr : overlapRatio b = 1 := by
      unfold overlapRatio
      rw [if_pos hh]
      have hd : b.bbox.h ≤ overlapDepth b := by
        unfold overlapDepth
        have he : b.bbox.h ≤ b.bbox.y + b.bbox.h - (1 - controlZoneRatio) := by
          linarith
        exact le_trans he (le_max_right 0 _)
      have hone : (1 : Rat) ≤ overlapDepth b / b.bbox.h := (one_le_div hh).mpr hd
      exact min_eq_left hone
    refine ⟨hr, ?_⟩
    unfold hasInteractiveRegion
    rw [hr]
    simp

/-- A concrete box lying entirely inside the bottom reserved band. -/
def bandBox : Box := ⟨none, 8, none, ⟨1/2, 9/10, 1/10, 1/20⟩, none, none⟩

/-- Witness for C10: the band conjunct applied to `bandBox`. -/
theorem overlapRatio_total_witness : overlapRatio bandBox = 1 :=
  ((overlapRatio_total bandBox).2.2 (by with_unfolding_all decide)
    (by with_unfolding_all decide)).1

/-! ## Description resolver (lines 88-308) -/

/-- Whitespace class of the `\s` regexes on lines 129-130 and 252-253,
restricted to the ASCII whitespace occurring in label names. -/
def isWsChar (c : Char) : Bool :=
  c == ' ' || c == '\t' || c == '\n' || c == '\r'

/-- Auxiliary scan for `replace(/p+/g, r)`: the flag records whether the
previous character was part of a run. -/
def replaceRunsAux (p : Char → Bool) (r : Char) : List Char → Bool → List Char
  | [], _ => []
  | c :: cs, inRun =>
      if p c then
        if inRun then replaceRunsAux p r cs true
        else r :: replaceRunsAux p r cs true
      else c :: replaceRunsAux p r cs false

/-- `String.replace(/p+/g, r)`: every maximal run of characters satisfying
`p` becomes the single character `r`. -/
def replaceRuns (p : Char → Bool) (r : Char) (s : String) : String :=
  String.mk (replaceRunsAux p r s.data false)

/-- The five lookup-key variants of lines 126-132 and 249-255: trimmed name,
lowercase, whitespace→underscore, whitespace→hyphen, and
non-alphanumeric→underscore lowercased. -/
def rawVariants (t : String) : List String :=
  [t, t.toLower, replaceRuns isWsChar '_' t, replaceRuns isWsChar '-' t,
    (replaceRuns (fun c => !c.isAlphanum) '_' t).toLower]

/-- Insertion-ordered `Set` semantics: keep the first occurrence. -/
def dedupKeepFirst : List String → List String
  | [] => []
  | x :: xs => x :: (dedupKeepFirst xs).filter (fun y => y != x)

/-- JS object assignment `lookup[k] = v`: overwrite in place, else append. -/
def objSet (m : List (String × String)) (k v : String) : List (String × String) :=
  if m.any (fun p => p.1 == k) then
    m.map (fun p => if p.1 == k then (k, v) else p)
  else
    m ++ [(k, v)]

/-- JS object read `lookup[k]`, `undefined` as `none`. -/
def objGet (m : List (String × String)) (k : String) : Option String :=
  (m.find? (fun p => p.1 == k)).map (fun p => p.2)

/-- Lines 119-140: the memoized lookup built from the raw mapping document.
`none` models a `descriptionMapping` that has not loaded yet; entries with a
falsy key or value are skipped, keys are trimmed, and every key contributes
its variant set (deduplicated, insertion order) pointing at its value. -/
def buildLookup :
    Option (List (String × String)) → Option (List (String × String))
  | none => none
  | some entries =>
      some (entries.foldl
        (fun lk kv =>
          if kv.1 = "" ∨ kv.2 = "" then lk
          else
            let trimmed := kv.1.trim
            if trimmed = "" then lk
            else
              (dedupKeepFirst (rawVariants trimmed)).foldl
                (fun lk2 v => if v = "" then lk2 else objSet lk2 v kv.2) lk)
        [])

/-- The values of the `descriptionStatus` state (line 17). -/
inductive DescStatus where
  | idle
  | loading
  | ready
  | missing
  | error
deriving DecidableEq, Repr

/-- Result of the synchronous part of the selection effect (lines 221-276):
published status, published html, and the path of the fetch it starts, if
any. -/
structure SyncOutcome where
  status : DescStatus
  html : String
  fetchPath : Option String
deriving DecidableEq, Repr

/-- Lines 234-256: name candidates (a `Set`: the truthy `label_name`, then
the display-name table entry of the label id), each expanded to its five
variants; falsy and blank names contribute nothing.  The display-name table
(src/utils/displayNames, outside the embedded sources) is a parameter; the
`Number.isFinite(label_id)` guard always passes for an integer label id. -/
def keysToTry (dn : Int → Option String) (b : Box) : List String :=
  let cands := dedupKeepFirst
    ((match b.label_name with
      | some n => if n = "" then [] else [n]
      | none => []) ++
     (match dn b.label_id with
      | some n => if n = "" then [] else [n]
      | none => []))
  cands.foldr (fun name acc =>
    (if name = "" then []
     else
       let trimmed := name.trim
       if trimmed = "" then [] else rawVariants trimmed) ++ acc) []

/-- Line 258: `keysToTry.map(key => mappingLookup[key]).find(Boolean) || null`
— the first truthy value, scanning the keys in order. -/
def findPath (lk : List (String × String)) : List String → Option String
  | [] => none
  | k :: rest =>
      match objGet lk k with
      | some v => if v = "" then findPath lk rest else some v
      | none => findPath lk rest

/-- The synchronous part of the description-resolver effect (lines 221-276):
no selection clears to `idle`; an unloaded or empty lookup publishes `error`
when the mapping load failed and `loading` otherwise; no key hit publishes
`missing` with no fetch; a hit publishes `loading` and starts the fetch of
the resolved path, leaving the html untouched. -/
def resolverSync (dn : Int → Option String) (selected : Option Box)
    (lookup : Option (List (String × String))) (mappingError : Bool)
    (prevHtml : String) : SyncOutcome :=
  match selected with
  | none => ⟨.idle, "", none⟩
  | some box =>
      match lookup with
      | none => ⟨if mappingError then .error else .loading, "", none⟩
      | some lk =>
          if lk.isEmpty then
            ⟨if mappingError then .error else .loading, "", none⟩
          else
            match findPath lk (keysToTry dn box) with
            | none => ⟨.missing, "", none⟩
            | some p => ⟨.loading, prevHtml, some p⟩

/-- C3 (amended): under a missing (still unloaded) or empty Description
Mapping every selection publishes `error` when the mapping load failed and
`loading` otherwise — never `missing`, never `ready` — and no fetch is
started (the engine does not crash: the outcome is total); `buildLookup`
sends a missing or empty document to exactly such a lookup. -/
theorem empty_mapping_no_missing (dn : Int → Option String) (b : Box)
    (me : Bool) (prevHtml : String) (lookup : Option (List (String × String)))
    (hlk : lookup = none ∨ lookup = some []) :
    resolverSync dn (some b) lookup me prevHtml =
        ⟨if me then .error else .loading, "", none⟩ ∧
      (resolverSync dn (some b) lookup me prevHtml).status ≠ .missing ∧
      (resolverSync dn (some b) lookup me prevHtml).status ≠ .ready ∧
      buildLookup none = none ∧ buildLookup (some []) = some [] := by
  rcases hlk with rfl | rfl <;>
    refine ⟨rfl, ?_, ?_, rfl, rfl⟩ <;> cases me <;>
      simp [resolverSync, List.isEmpty]

/-- A concrete selected box for the resolver theorems. -/
def selBox : Box := ⟨none, 1, some "Reactor", ⟨1/4, 1/4, 1/10, 1/10⟩, none, none⟩

/-- C3 counterexample: with a loaded-but-empty mapping and no load error, a
selection publishes `loading`, not `missing` — and since the mapping document
never changes after its single load, the resolver stays in `loading`. -/
theorem empty_mapping_stuck_loading :
    resolverSync (fun _ => none) (some selBox) (buildLookup (some [])) false "" =
        ⟨.loading, "", none⟩ ∧
      DescStatus.loading ≠ DescStatus.missing := by
  exact ⟨rfl, by decide⟩

/-- Witness for C3: the concrete unloaded-mapping selection is not
`missing`. -/
theorem empty_mapping_no_missing_witness :
    (resolverSync (fun _ => none) (some selBox) none true "").status ≠
      DescStatus.missing :=
  (empty_mapping_no_missing (fun _ => none) selBox true "" none (Or.inl rfl)).2.1

/-- State of the description-request machinery: `latest` is
`latestFetchRef.current` (line 19), `inFlight` the request whose
AbortController the current effect run owns, `aborted` the requests whose
controllers an effect cleanup aborted, plus the published status and html. -/
structure RState where
  latest : Nat
  inFlight : Option Nat
  aborted : List Nat
  status : DescStatus
  html : String
deriving DecidableEq, Repr

/-- Effect cleanup (lines 305-307): abort the in-flight controller. -/
def abortInFlight (s : RState) : List Nat :=
  match s.inFlight with
  | some r => r :: s.aborted
  | none => s.aborted

/-- Events of the resolver's asynchronous life: a new hit selection (cleanup
aborts the previous fetch, lines 273-276 take requestId = latest + 1 and
publish `loading`), clearing the selection (cleanup plus lines 222-226), and
the arrival of a fetch result for request `r` (lines 278-303).  A success for
an aborted request never arrives: its promise rejects instead, and the
rejection handler returns at the `controller.signal.aborted` guard (line
294), so both of those arrivals are no-ops. -/
inductive REvent where
  | select
  | clear
  | succeed (r : Nat) (content : String)
  | fail (r : Nat)

/-- One transition of the resolver machinery.  The `succeed` guards mirror
lines 286-288 (stale requestId discarded) and the impossibility of a
post-abort success; the `fail` guards mirror lines 294-300. -/
def rstep (s : RState) : REvent → RState
  | .select =>
      { latest := s.latest + 1
        inFlight := some (s.latest + 1)
        aborted := abortInFlight s
        status := .loading
        html := s.html }
  | .clear =>
      { s with
        inFlight := none
        aborted := abortInFlight s
        status := .idle
        html := "" }
  | .succeed r content =>
      if s.aborted.contains r then s
      else if s.latest ≠ r then s
      else { s with status := .ready, html := content, inFlight := none }
  | .fail r =>
      if s.aborted.contains r then s
      else if s.latest ≠ r then s
      else { s with status := .error, html := "", inFlight := none }

/-- Reachable-state invariant: request ids never exceed the counter. -/
def RInv (s : RState) : Prop :=
  (∀ r ∈ s.aborted, r ≤ s.latest) ∧ ∀ r, s.inFlight = some r → r ≤ s.latest

/-- C9: stale results are discarded.  In any state, a result for a request
that was aborted or superseded leaves the state untouched; after selecting A
then B (B before A's fetch resolves), A's request is both superseded and
aborted, its success or failure is a no-op, and only B's request can publish
`ready` — with B's content; a result arriving after the selection was cleared
is likewise a no-op. -/
theorem last_selection_wins (s : RState) (hInv : RInv s) (hA hB : String) :
    (∀ (r : Nat) (h : String), r ∈ s.aborted ∨ r ≠ s.latest →
      rstep s (.succeed r h) = s ∧ rstep s (.fail r) = s) ∧
    rstep (rstep (rstep s .select) .select)
        (.succeed (rstep s .select).latest hA) =
      rstep (rstep s .select) .select ∧
    rstep (rstep (rstep s .select) .select) (.fail (rstep s .select).latest) =
      rstep (rstep s .select) .select ∧
    (rstep (rstep (rstep s .select) .select)
        (.succeed (rstep (rstep s .select) .select).latest hB)).status =
      .ready ∧
    (rstep (rstep (rstep s .select) .select)
        (.succeed (rstep (rstep s .select) .select).latest hB)).html = hB ∧
    rstep (rstep (rstep s .select) .clear)
        (.succeed (rstep s .select).latest hA) =
      rstep (rstep s .select) .clear := by
  refine ⟨?_, ?_, ?_, ?_, ?_, ?_⟩
  · intro r h hcase
    rcases hcase with hab | hne
    · constructor <;>
        · simp only [rstep]
          rw [if_pos (List.elem_eq_true_of_mem hab)]
    · by_cases habm : r ∈ s.aborted
      · constructor <;>
          · simp only [rstep]
            rw [if_pos (List.elem_eq_true_of_mem habm)]
      · have hcf : s.aborted.contains r = false := by
          cases hcc : s.aborted.contains r with
          | false => rfl
          | true => exact absurd (List.mem_of_elem_eq_true hcc) habm
        constructor <;>
          · simp only [rstep]
            rw [if_neg (by simpa using habm), if_pos (Ne.symm hne)]
  · have hc : ((s.latest + 1) :: abortInFlight s).contains (s.latest + 1) = true :=
      List.elem_eq_true_of_mem (List.mem_cons_self _ _)
    show rstep ⟨s.latest + 2, some (s.latest + 2),
        (s.latest + 1) :: abortInFlight s, .loading, s.html⟩
        (.succeed (s.latest + 1) hA) = _
    simp [rstep, abortInFlight, hc]
  · have hc : ((s.latest + 1) :: abortInFlight s).contains (s.latest + 1) = true :=
      List.elem_eq_true_of_mem (List.mem_cons_self _ _)
    show rstep ⟨s.latest + 2, some (s.latest + 2),
        (s.latest + 1) :: abortInFlight s, .loading, s.html⟩
        (.fail (s.latest + 1)) = _
    simp [rstep, abortInFlight, hc]
  · have hno2 : s.latest + 2 ∉ abortInFlight s := by
      intro hm
      have hle : s.latest + 2 ≤ s.latest := by
        unfold abortInFlight at hm
        rcases hf : s.inFlight with _ | r0 <;> rw [hf] at hm
        · exact hInv.1 _ hm
        · rcases List.mem_cons.mp hm with he2 | hm2
          · have hr0 := hInv.2 r0 hf
            omega
          · exact hInv.1 _ hm2
      omega
    show (rstep ⟨s.latest + 2, some (s.latest + 2),
        (s.latest + 1) :: abortInFlight s, .loading, s.html⟩
        (.succeed (s.latest + 2) hB)).status = _
    simp [rstep, hno2]
  · have hno2 : s.latest + 2 ∉ abortInFlight s := by
      intro hm
      have hle : s.latest + 2 ≤ s.latest := by
        unfold abortInFlight at hm
        rcases hf : s.inFlight with _ | r0 <;> rw [hf] at hm
        · exact hInv.1 _ hm
        · rcases List.mem_cons.mp hm with he2 | hm2
          · have hr0 := hInv.2 r0 hf
            omega
          · exact hInv.1 _ hm2
      omega
    show (rstep ⟨s.latest + 2, some (s.latest + 2),
        (s.latest + 1) :: abortInFlight s, .loading, s.html⟩
        (.succeed (s.latest + 2) hB)).html = _
    simp [rstep, hno2]
  · have hc : ((s.latest + 1) :: abortInFlight s).contains (s.latest + 1) = true :=
      List.elem_eq_true_of_mem (List.mem_cons_self _ _)
    show rstep ⟨s.latest + 1, none,
        (s.latest + 1) :: abortInFlight s, .idle, ""⟩
        (.succeed (s.latest + 1) hA) = _
    simp [rstep, abortInFlight, hc]

/-- The initial resolver state. -/
def rInit : RState := ⟨0, none, [], .idle, ""⟩

/-- Witness for C9: from the initial state, select twice, then deliver the
first request's success — the published state is unchanged. -/
theorem last_selection_wins_witness :
    rstep (rstep (rstep rInit .select) .select)
        (.succeed (rstep rInit .select).latest "alpha") =
      rstep (rstep rInit .select) .select :=
  (last_selection_wins rInit
    ⟨fun r hr => absurd hr (List.not_mem_nil r),
      fun _ hr => Option.noConfusion hr⟩
    "alpha" "beta").2.1
